import Mathlib

/-!
Verification of the entry layer of the `armour` password database
(`armour/pdb/entries.py`).

Bytes are embedded as `List Nat`; the insertion-ordered Python `dict`
holding an entry's fields is embedded as an association list together
with an in-place-overwriting insert.  The modules `s`, `crypt`, `exc`
and `header` that `entries.py` imports are not part of the sources under
verification; the pieces of them the entry layer uses are modelled from
the specification (each such definition says so in its doc comment).
Stateful Python code is embedded by explicit state passing; a raised
exception becomes an `Except` error value, and the incremental mutation
of `PdbEntries.ents` during `gather` is kept by returning the final
state of the list next to the optional error.
-/

namespace s

/-- Modelled from the spec: `BL`, the fixed width in bytes of a field
name ("fixed-width byte identifier (width = a protocol constant,
BL)").  The parse loops of `entries.py` compare the identifier they
read against a single zero byte and `full_entry` appends that same
single zero byte as the sentinel, which fixes `BL = 1`. -/
def BL : Nat := 1

/-- Modelled from the spec: the width in bytes of the fixed-width
unsigned length prefix (the `struct` format `s.L` of the missing module
`s`); "FieldValue: variable-length byte string; on the wire prefixed by
a fixed-width unsigned length (L bytes)". -/
def Lw : Nat := 2

/-- Modelled from the spec: `s.pack` for the length format, a
fixed-endianness fixed-width unsigned encoding ("all multi-byte
integers per a fixed endianness chosen by the implementation");
little-endian here. -/
def pack : Nat → Nat → List Nat
  | 0, _ => []
  | w + 1, n => n % 256 :: pack w (n / 256)

/-- Modelled from the spec: the decoding half of the fixed-width
unsigned integer codec used by `s.sunpack`. -/
def unpack : List Nat → Nat
  | [] => 0
  | b :: rest => b + 256 * unpack rest

theorem pack_length (w n : Nat) : (pack w n).length = w := by
  induction w generalizing n with
  | zero => rfl
  | succ w ih => simp [pack, ih]

theorem unpack_pack (w n : Nat) (h : n < 256 ^ w) : unpack (pack w n) = n := by
  induction w generalizing n with
  | zero => simp [pack, unpack]; omega
  | succ w ih =>
      have hdiv : n / 256 < 256 ^ w := by
        rw [Nat.div_lt_iff_lt_mul (by omega : 0 < 256)]
        calc n < 256 ^ (w + 1) := h
          _ = 256 ^ w * 256 := by ring
      simp [pack, unpack, ih (n / 256) hdiv]
      omega

end s

/-- An insertion-ordered lookup in the association-list embedding of a
Python `dict` keyed by byte strings. -/
def dictGet : List (List Nat × List Nat) → List Nat → Option (List Nat)
  | [], _ => none
  | (k, v) :: rest, n => if k = n then some v else dictGet rest n

/-- Insertion into the association-list embedding of a Python `dict`:
an existing key keeps its position and gets its value overwritten, a
new key is appended at the end (insertion order preserved). -/
def dictInsert : List (List Nat × List Nat) → List Nat → List Nat → List (List Nat × List Nat)
  | [], n, v => [(n, v)]
  | (k, w) :: rest, n, v =>
      if k = n then (k, v) :: rest else (k, w) :: dictInsert rest n v

theorem dictGet_dictInsert_self (d : List (List Nat × List Nat)) (k v : List Nat) :
    dictGet (dictInsert d k v) k = some v := by
  induction d with
  | nil => simp [dictInsert, dictGet]
  | cons hd tl ih =>
      obtain ⟨a, b⟩ := hd
      by_cases hak : a = k
      · simp [dictInsert, hak, dictGet]
      · simp [dictInsert, hak, dictGet, ih]

theorem dictInsert_of_get_none (d : List (List Nat × List Nat)) (k v : List Nat)
    (h : dictGet d k = none) : dictInsert d k v = d ++ [(k, v)] := by
  induction d with
  | nil => simp [dictInsert]
  | cons hd tl ih =>
      obtain ⟨a, b⟩ := hd
      by_cases hak : a = k
      · simp [dictGet, hak] at h
      · simp [dictGet, hak] at h
        simp [dictInsert, hak, ih h]

theorem dictGet_append (d d' : List (List Nat × List Nat)) (k : List Nat)
    (h : dictGet d k = none) : dictGet (d ++ d') k = dictGet d' k := by
  induction d with
  | nil => simp
  | cons hd tl ih =>
      obtain ⟨a, b⟩ := hd
      by_cases hak : a = k
      · simp [dictGet, hak] at h
      · simp [dictGet, hak] at h ⊢
        exact ih h

/-- The error kinds of the entry layer (spec taxonomy, section 7), plus
the host language's missing-key error raised by a `dict` subscript on
an absent key. -/
inductive PdbErr where
  | formatError
  | dataIntegrityError (eid : Nat) (ehash : List Nat)
  | structureError (eid : Nat)
  | decryptionError
  | keyError
deriving DecidableEq

/-- Modelled from the spec: the container context (`header.PdbHeader`),
which "supplies secret material (password, salt), hash algorithm
selector, KDF iteration count, hash-salt length, secure-crypto
iteration count, compression level, and digest size; exposes the raw
(post-decryption) entries blob for read/write".  `ds` is the value of
the context's `digestSize()`. -/
structure PdbHeader where
  password : List Nat
  salt : List Nat
  hash_id : Nat
  hash_salt_len : Nat
  sec_crypto_passes : Nat
  kdf_passes : Nat
  zstd_comp_lvl : Nat
  entries : List Nat
  ds : Nat
deriving DecidableEq

/-- Modelled from the spec: the crypto collaborator (`crypt` module)
with authenticated per-field encryption/decryption and the keyed hash;
the argument orders follow the call sites in `entries.py`.
`decrypt_secure` fails with `DecryptionError` "on authentication
failure or corruption", hence the `Except` result. -/
structure Crypt where
  encrypt_secure :
    List Nat → List Nat → List Nat → Nat → Nat → Nat → Nat → Nat → List Nat
  decrypt_secure :
    List Nat → List Nat → List Nat → Nat → Nat → Nat → Nat → Except PdbErr (List Nat)
  hash_walgo : Nat → List Nat → List Nat → List Nat → Nat → Nat → List Nat

/-- Modelled from the spec: `crypt.hash_walgo_compare` "recompute and
compare against the stored tag" — `revalidate` succeeds iff
`storedTag == keyedHash(fieldArea, contextParams)` (spec section 8). -/
def Crypt.hash_walgo_compare (c : Crypt) (hash_id : Nat) (data password salt : List Nat)
    (kdf_passes hash_salt_len : Nat) (digest : List Nat) : Bool :=
  c.hash_walgo hash_id data password salt kdf_passes hash_salt_len == digest

/-- `encrypt_secure` applied with the parameters a given container
context supplies, exactly as `PdbPwdEntry._set_crypt` passes them. -/
def Crypt.enc_secure_hdr (c : Crypt) (head : PdbHeader) (value : List Nat) : List Nat :=
  c.encrypt_secure value head.password head.salt head.hash_id head.hash_salt_len
    head.sec_crypto_passes head.kdf_passes head.zstd_comp_lvl

/-- `decrypt_secure` applied with the parameters a given container
context supplies, exactly as `PdbPwdEntry._get_crypt` passes them. -/
def Crypt.dec_secure_hdr (c : Crypt) (head : PdbHeader) (value : List Nat) :
    Except PdbErr (List Nat) :=
  c.decrypt_secure value head.password head.salt head.hash_id head.hash_salt_len
    head.sec_crypto_passes head.kdf_passes

/-- The two concrete entry classes of `entries.py`: `PdbRawEntry` and
`PdbPwdEntry`. -/
inductive EntryT where
  | raw
  | pwd
deriving DecidableEq

/-- A `PdbEntry` object: the variant tag stands for the concrete class,
`eid` for the process-wide `entry_id` assigned at construction, and
`fields` is the insertion-ordered field store. -/
structure PdbEntry where
  variant : EntryT
  eid : Nat
  head : PdbHeader
  ehash : List Nat
  fields : List (List Nat × List Nat)
deriving DecidableEq

namespace PdbPwdEntry

/-- `PdbPwdEntry.all_fields`: the required field names n, u, p, r. -/
def all_fields : List (List Nat) := [[110], [117], [112], [114]]

/-- `PdbPwdEntry.encrypted_fields`: the field names u and p whose
values are ciphertext at rest. -/
def encrypted_fields : List (List Nat) := [[117], [112]]

end PdbPwdEntry

namespace PdbEntry

/-- `PdbEntry.set_field_raw`: store a value under a name, bypassing any
encryption. -/
def set_field_raw (e : PdbEntry) (name value : List Nat) : PdbEntry :=
  { e with fields := dictInsert e.fields name value }

/-- `PdbEntry.get_field_raw`: read the stored value of a name; the
`dict` subscript raises the host `KeyError` when the name is absent. -/
def get_field_raw (e : PdbEntry) (name : List Nat) : Except PdbErr (List Nat) :=
  match dictGet e.fields name with
  | some v => .ok v
  | none => .error .keyError

/-- `PdbPwdEntry._set_crypt`: encrypt with the container context's
parameters, then store the ciphertext raw. -/
def set_crypt (c : Crypt) (e : PdbEntry) (name value : List Nat) : PdbEntry :=
  e.set_field_raw name (c.enc_secure_hdr e.head value)

/-- `PdbPwdEntry._get_crypt`: read the raw stored value, then decrypt
it with the container context's parameters. -/
def get_crypt (c : Crypt) (e : PdbEntry) (name : List Nat) : Except PdbErr (List Nat) := do
  let r ← e.get_field_raw name
  c.dec_secure_hdr e.head r

/-- The virtual `set_field`: `PdbRawEntry.set_field` delegates to the
raw store; `PdbPwdEntry.set_field` routes u and p through
`_set_crypt` and everything else to the raw store. -/
def set_field (c : Crypt) (e : PdbEntry) (name value : List Nat) : PdbEntry :=
  match e.variant with
  | .raw => e.set_field_raw name value
  | .pwd =>
      if name ∈ PdbPwdEntry.encrypted_fields then e.set_crypt c name value
      else e.set_field_raw name value

/-- The virtual `get_field`: `PdbRawEntry.get_field` reads the raw
store; `PdbPwdEntry.get_field` decrypts u and p via `_get_crypt` and
reads everything else raw. -/
def get_field (c : Crypt) (e : PdbEntry) (name : List Nat) : Except PdbErr (List Nat) :=
  match e.variant with
  | .raw => e.get_field_raw name
  | .pwd =>
      if name ∈ PdbPwdEntry.encrypted_fields then e.get_crypt c name
      else e.get_field_raw name

/-- The virtual `validate_struct`: `PdbRawEntry.validate_struct` always
succeeds; `PdbPwdEntry.validate_struct` raises `StructureError` with
the entry id unless all of n, u, p, r are present in the field store. -/
def validate_struct (e : PdbEntry) : Except PdbErr PdbEntry :=
  match e.variant with
  | .raw => .ok e
  | .pwd =>
      if PdbPwdEntry.all_fields.all (fun f => (dictGet e.fields f).isSome) then .ok e
      else .error (.structureError e.eid)

/-- `PdbEntry.entry`: the non-full entry as bytes — for each field in
iteration order, the name, the packed length of the value, and the
value. -/
def entry (e : PdbEntry) : List Nat :=
  (e.fields.map (fun fd => fd.1 ++ s.pack s.Lw fd.2.length ++ fd.2)).flatten

/-- `PdbEntry.full_entry`: hash, then the entry bytes, then the NULL
sentinel. -/
def full_entry (e : PdbEntry) : List Nat :=
  e.ehash ++ e.entry ++ [0]

/-- `PdbEntry.rehash`: recompute the integrity tag over the entry
bytes using the container context's parameters. -/
def rehash (c : Crypt) (e : PdbEntry) : PdbEntry :=
  { e with
    ehash := c.hash_walgo e.head.hash_id e.entry e.head.password e.head.salt
      e.head.kdf_passes e.head.hash_salt_len }

/-- `PdbEntry.hash_ok`: is the stored integrity tag valid. -/
def hash_ok (c : Crypt) (e : PdbEntry) : Bool :=
  c.hash_walgo_compare e.head.hash_id e.entry e.head.password e.head.salt
    e.head.kdf_passes e.head.hash_salt_len e.ehash

/-- `PdbEntry.revalidate`: raise `DataIntegrityError` carrying the
entry id and the offending tag when the hash check fails, else return
the entry itself. -/
def revalidate (c : Crypt) (e : PdbEntry) : Except PdbErr PdbEntry :=
  if e.hash_ok c then .ok e else .error (.dataIntegrityError e.eid e.ehash)

end PdbEntry

/-- The field-area parse loop of `PdbEntry.from_entry`: read a `BL`-byte
identifier, stop on the zero-byte sentinel, otherwise read the
`L`-byte length and that many value bytes and assign them through the
subscript (`set_field`).  A truncated length read is the point where
the missing helper `s.sunpack` fails; modelled from the spec, that
failure is `FormatError` ("Fails with FormatError if fewer bytes
remain than a declared length requires, or if the buffer ends without
a sentinel"). -/
def PdbEntry.from_entry_loop (c : Crypt) (e : PdbEntry) (b : List Nat) :
    Except PdbErr PdbEntry :=
  if b.take s.BL = [0] then .ok e
  else if h : (b.drop s.BL).length < s.Lw then .error .formatError
  else
    PdbEntry.from_entry_loop c
      (e.set_field c (b.take s.BL)
        (((b.drop s.BL).drop s.Lw).take (s.unpack ((b.drop s.BL).take s.Lw))))
      (((b.drop s.BL).drop s.Lw).drop (s.unpack ((b.drop s.BL).take s.Lw)))
termination_by b.length
decreasing_by
  simp only [List.length_drop, s.BL, s.Lw] at *
  omega

/-- `PdbEntry.from_entry`: create the entry's fields from binary data
(does not validate the hash). -/
def PdbEntry.from_entry (c : Crypt) (e : PdbEntry) (entry : List Nat) :
    Except PdbErr PdbEntry :=
  PdbEntry.from_entry_loop c e entry

/-- `PdbEntries`: all entries of a database, next to the container
context. -/
structure PdbEntries where
  ents : List PdbEntry
  head : PdbHeader

/-- The inline field loop of `PdbEntries.gather`: identical framing to
`PdbEntry.from_entry_loop` but the parsed pairs are stored with
`set_field_raw`, and the stream position after the sentinel is handed
back for the next entry. -/
def PdbEntries.gather_fields (e : PdbEntry) (b : List Nat) :
    Except PdbErr (PdbEntry × List Nat) :=
  if b.take s.BL = [0] then .ok (e, b.drop s.BL)
  else if h : (b.drop s.BL).length < s.Lw then .error .formatError
  else
    PdbEntries.gather_fields
      (e.set_field_raw (b.take s.BL)
        (((b.drop s.BL).drop s.Lw).take (s.unpack ((b.drop s.BL).take s.Lw))))
      (((b.drop s.BL).drop s.Lw).drop (s.unpack ((b.drop s.BL).take s.Lw)))
termination_by b.length
decreasing_by
  simp only [List.length_drop, s.BL, s.Lw] at *
  omega

theorem PdbEntries.gather_fields_length :
    ∀ (n : Nat) (b : List Nat), b.length ≤ n →
      ∀ (e e' : PdbEntry) (rest : List Nat),
        PdbEntries.gather_fields e b = .ok (e', rest) → rest.length < b.length := by
  intro n
  induction n with
  | zero =>
      intro b hb e e' rest hg
      have hb0 : b = [] := List.eq_nil_of_length_eq_zero (Nat.le_zero.mp hb)
      subst hb0
      rw [PdbEntries.gather_fields] at hg
      simp [s.BL, s.Lw] at hg
  | succ n ih =>
      intro b hb e e' rest hg
      rw [PdbEntries.gather_fields] at hg
      by_cases h0 : b.take s.BL = [0]
      · rw [if_pos h0] at hg
        have hbne : b ≠ [] := by
          intro hnil
          subst hnil
          simp [s.BL] at h0
        have hbpos : 0 < b.length := List.length_pos.mpr hbne
        simp at hg
        have : rest = b.drop s.BL := hg.2.symm
        subst this
        simp only [List.length_drop, s.BL]
        omega
      · rw [if_neg h0] at hg
        simp only [List.length_drop] at hg
        by_cases h1 : b.length - s.BL < s.Lw
        · rw [dif_pos h1] at hg
          exact absurd hg (by simp)
        · rw [dif_neg h1] at hg
          have hlt :
              (((b.drop s.BL).drop s.Lw).drop (s.unpack ((b.drop s.BL).take s.Lw))).length
                ≤ n := by
            simp only [List.length_drop, s.BL, s.Lw] at h1 ⊢
            omega
          have hrec := ih _ hlt _ _ _ hg
          simp only [List.length_drop, s.BL, s.Lw] at hrec h1 ⊢
          omega

/-- The per-entry loop of `PdbEntries.gather`: read `ds()` bytes as the
next tag, stop on a clean end of buffer, otherwise construct a fresh
variant instance carrying the tag, parse its field area with
`set_field_raw`, run `revalidate` then `validate_struct`, and append
the survivor to the (already partially extended) entry list.  The
process-wide id counter is modelled as the sequence `nid, nid + 1, …`
local to one call. -/
def PdbEntries.gather_loop (c : Crypt) (t : EntryT) (head : PdbHeader) (nid : Nat)
    (ents : List PdbEntry) (b : List Nat) : List PdbEntry × Option PdbErr :=
  if b.take head.ds = [] then (ents, none)
  else
    match hg : PdbEntries.gather_fields
        { variant := t, eid := nid, head := head, ehash := b.take head.ds, fields := [] }
        (b.drop head.ds) with
    | .error err => (ents, some err)
    | .ok (e, rest) =>
        match (e.revalidate c).bind PdbEntry.validate_struct with
        | .error err => (ents, some err)
        | .ok e' => PdbEntries.gather_loop c t head (nid + 1) (ents ++ [e']) rest
termination_by b.length
decreasing_by
  have := PdbEntries.gather_fields_length (b.drop head.ds).length _ (Nat.le_refl _) _ _ _ hg
  simp only [List.length_drop] at this ⊢
  omega

/-- `PdbEntries.gather`: ask the container context to decrypt itself,
return unchanged on an empty blob, otherwise run the per-entry loop
over the blob.  The in-place mutation of the header and of `ents` is
made explicit, and the raised exception, if any, is returned next to
the final state. -/
def PdbEntries.gather (c : Crypt) (dec : PdbHeader → PdbHeader) (t : EntryT)
    (col : PdbEntries) : PdbEntries × Option PdbErr :=
  let head := dec col.head
  if head.entries = [] then ({ col with head := head }, none)
  else
    let r := PdbEntries.gather_loop c t head 0 col.ents head.entries
    ({ ents := r.1, head := head }, r.2)

/-- `PdbEntries.add_entry`: run `revalidate` then `validate_struct` on
the candidate and append it only when both succeed. -/
def PdbEntries.add_entry (c : Crypt) (col : PdbEntries) (e : PdbEntry) :
    PdbEntries × Option PdbErr :=
  match (e.revalidate c).bind PdbEntry.validate_struct with
  | .error err => (col, some err)
  | .ok e' => ({ col with ents := col.ents ++ [e'] }, none)

/-- `PdbEntries.db_entries`: all entries as bytes, in collection
order. -/
def PdbEntries.db_entries (col : PdbEntries) : List Nat :=
  (col.ents.map PdbEntry.full_entry).flatten

/-- `PdbEntries.commit`: ask the context to decrypt itself, then
replace its entries blob with the serialized collection. -/
def PdbEntries.commit (dec : PdbHeader → PdbHeader) (col : PdbEntries) : PdbEntries :=
  let head := dec col.head
  { col with head := { head with entries := col.db_entries } }

/-- The structural shape of a field area the parse loops accept: it is
terminated by the zero-byte sentinel, every length prefix is complete,
and every declared value length stays within the remaining buffer (an
overrunning length leaves an empty remainder, on which the recursion
answers false). -/
def sentinelTerminated (b : List Nat) : Bool :=
  if b.take s.BL = [0] then true
  else if h : (b.drop s.BL).length < s.Lw then false
  else
    sentinelTerminated
      (((b.drop s.BL).drop s.Lw).drop (s.unpack ((b.drop s.BL).take s.Lw)))
termination_by b.length
decreasing_by
  simp only [List.length_drop, s.BL, s.Lw] at *
  omega

theorem gather_fields_sentinel (e : PdbEntry) (rest : List Nat) :
    PdbEntries.gather_fields e (0 :: rest) = .ok (e, rest) := by
  rw [PdbEntries.gather_fields]
  simp [s.BL]

theorem gather_fields_nil (e : PdbEntry) :
    PdbEntries.gather_fields e [] = .error .formatError := by
  rw [PdbEntries.gather_fields]
  simp [s.BL, s.Lw]

theorem gather_fields_field (e : PdbEntry) (c0 : Nat) (h0 : c0 ≠ 0) (v rest : List Nat)
    (hv : v.length < 256 ^ s.Lw) :
    PdbEntries.gather_fields e (c0 :: (s.pack s.Lw v.length ++ (v ++ rest))) =
      PdbEntries.gather_fields (e.set_field_raw [c0] v) rest := by
  conv_lhs => rw [PdbEntries.gather_fields]
  have htake : (c0 :: (s.pack s.Lw v.length ++ (v ++ rest))).take s.BL = [c0] := by
    simp [s.BL]
  have hdrop : (c0 :: (s.pack s.Lw v.length ++ (v ++ rest))).drop s.BL =
      s.pack s.Lw v.length ++ (v ++ rest) := by
    simp [s.BL]
  rw [htake, hdrop]
  rw [if_neg (by simp [h0])]
  rw [dif_neg (by simp [s.pack_length])]
  rw [List.take_left' (s.pack_length s.Lw v.length),
    List.drop_left' (s.pack_length s.Lw v.length), s.unpack_pack s.Lw v.length hv,
    List.take_left, List.drop_left]

theorem from_entry_loop_sentinel (c : Crypt) (e : PdbEntry) (rest : List Nat) :
    PdbEntry.from_entry_loop c e (0 :: rest) = .ok e := by
  rw [PdbEntry.from_entry_loop]
  simp [s.BL]

theorem from_entry_loop_nil (c : Crypt) (e : PdbEntry) :
    PdbEntry.from_entry_loop c e [] = .error .formatError := by
  rw [PdbEntry.from_entry_loop]
  simp [s.BL, s.Lw]

theorem from_entry_loop_field (c : Crypt) (e : PdbEntry) (c0 : Nat) (h0 : c0 ≠ 0)
    (v rest : List Nat) (hv : v.length < 256 ^ s.Lw) :
    PdbEntry.from_entry_loop c e (c0 :: (s.pack s.Lw v.length ++ (v ++ rest))) =
      PdbEntry.from_entry_loop c (e.set_field c [c0] v) rest := by
  conv_lhs => rw [PdbEntry.from_entry_loop]
  have htake : (c0 :: (s.pack s.Lw v.length ++ (v ++ rest))).take s.BL = [c0] := by
    simp [s.BL]
  have hdrop : (c0 :: (s.pack s.Lw v.length ++ (v ++ rest))).drop s.BL =
      s.pack s.Lw v.length ++ (v ++ rest) := by
    simp [s.BL]
  rw [htake, hdrop]
  rw [if_neg (by simp [h0])]
  rw [dif_neg (by simp [s.pack_length])]
  rw [List.take_left' (s.pack_length s.Lw v.length),
    List.drop_left' (s.pack_length s.Lw v.length), s.unpack_pack s.Lw v.length hv,
    List.take_left, List.drop_left]

theorem revalidate_ok_eq {c : Crypt} {e e' : PdbEntry}
    (h : PdbEntry.revalidate c e = .ok e') : e' = e ∧ PdbEntry.hash_ok c e = true := by
  unfold PdbEntry.revalidate at h
  split at h
  next hh => injection h with h1; exact ⟨h1.symm, hh⟩
  next hh => exact absurd h (by simp)

theorem validate_struct_ok_eq {e e' : PdbEntry}
    (h : PdbEntry.validate_struct e = .ok e') : e' = e := by
  unfold PdbEntry.validate_struct at h
  split at h
  · injection h with h1
    exact h1.symm
  · split at h
    · injection h with h1
      exact h1.symm
    · exact absurd h (by simp)

theorem gate_ok {c : Crypt} {e e' : PdbEntry}
    (h : (PdbEntry.revalidate c e).bind PdbEntry.validate_struct = .ok e') :
    e' = e ∧ PdbEntry.revalidate c e' = .ok e' ∧ PdbEntry.validate_struct e' = .ok e' := by
  cases hrev : PdbEntry.revalidate c e with
  | error err => simp [hrev, Except.bind] at h
  | ok m =>
      rw [hrev] at h
      simp only [Except.bind] at h
      obtain ⟨hm, _⟩ := revalidate_ok_eq hrev
      have he' : e' = m := validate_struct_ok_eq h
      subst hm
      subst he'
      exact ⟨rfl, hrev, h⟩

theorem from_entry_loop_err_format_aux (c : Crypt) :
    ∀ (n : Nat) (b : List Nat), b.length ≤ n → ∀ (e : PdbEntry) (err : PdbErr),
      PdbEntry.from_entry_loop c e b = .error err → err = .formatError := by
  intro n
  induction n with
  | zero =>
      intro b hb e err h
      have hb0 : b = [] := List.eq_nil_of_length_eq_zero (Nat.le_zero.mp hb)
      subst hb0
      rw [from_entry_loop_nil] at h
      injection h with h1
      exact h1.symm
  | succ n ih =>
      intro b hb e err h
      rw [PdbEntry.from_entry_loop] at h
      by_cases h0 : b.take s.BL = [0]
      · rw [if_pos h0] at h
        exact absurd h (by simp)
      · rw [if_neg h0] at h
        simp only [List.length_drop] at h
        by_cases h1 : b.length - s.BL < s.Lw
        · rw [dif_pos h1] at h
          injection h with h2
          exact h2.symm
        · rw [dif_neg h1] at h
          refine ih _ ?_ _ _ h
          simp only [List.length_drop, s.BL, s.Lw] at h1 ⊢
          omega

theorem from_entry_loop_err_format {c : Crypt} {e : PdbEntry} {b : List Nat} {err : PdbErr}
    (h : PdbEntry.from_entry_loop c e b = .error err) : err = .formatError :=
  from_entry_loop_err_format_aux c b.length b (Nat.le_refl _) e err h

theorem from_entry_loop_noSentinel_aux (c : Crypt) :
    ∀ (n : Nat) (b : List Nat), b.length ≤ n → sentinelTerminated b = false →
      ∀ e : PdbEntry, PdbEntry.from_entry_loop c e b = .error .formatError := by
  intro n
  induction n with
  | zero =>
      intro b hb _ e
      have hb0 : b = [] := List.eq_nil_of_length_eq_zero (Nat.le_zero.mp hb)
      subst hb0
      exact from_entry_loop_nil c e
  | succ n ih =>
      intro b hb hs e
      rw [sentinelTerminated] at hs
      rw [PdbEntry.from_entry_loop]
      by_cases h0 : b.take s.BL = [0]
      · rw [if_pos h0] at hs
        exact absurd hs (by simp)
      · rw [if_neg h0] at hs
        rw [if_neg h0]
        simp only [List.length_drop] at hs ⊢
        by_cases h1 : b.length - s.BL < s.Lw
        · rw [dif_pos h1]
        · rw [dif_neg h1] at hs
          rw [dif_neg h1]
          refine ih _ ?_ hs _
          simp only [List.length_drop, s.BL, s.Lw] at h1 ⊢
          omega

theorem gather_loop_admits_aux (c : Crypt) (t : EntryT) (head : PdbHeader) :
    ∀ (n : Nat) (b : List Nat), b.length ≤ n → ∀ (nid : Nat) (ents : List PdbEntry),
      ∃ new, (PdbEntries.gather_loop c t head nid ents b).1 = ents ++ new ∧
        ∀ x ∈ new, PdbEntry.revalidate c x = .ok x ∧ PdbEntry.validate_struct x = .ok x := by
  intro n
  induction n with
  | zero =>
      intro b hb nid ents
      have hb0 : b = [] := List.eq_nil_of_length_eq_zero (Nat.le_zero.mp hb)
      subst hb0
      rw [PdbEntries.gather_loop]
      exact ⟨[], by simp, by simp⟩
  | succ n ih =>
      intro b hb nid ents
      rw [PdbEntries.gather_loop]
      by_cases h0 : b.take head.ds = []
      · rw [if_pos h0]
        exact ⟨[], by simp, by simp⟩
      · rw [if_neg h0]
        split
      -- parse of the field area failed
        · exact ⟨[], by simp, by simp⟩
        next e rest hg =>
          split
          -- one of the two gates failed
          · exact ⟨[], by simp, by simp⟩
          next e' hgate =>
            have hrest : rest.length ≤ n := by
              have h1 := PdbEntries.gather_fields_length (b.drop head.ds).length _
                (Nat.le_refl _) _ _ _ hg
              simp only [List.length_drop] at h1
              omega
            obtain ⟨new, hnew1, hnew2⟩ := ih rest hrest (nid + 1) (ents ++ [e'])
            obtain ⟨_, hrev, hval⟩ := gate_ok hgate
            refine ⟨e' :: new, by rw [hnew1]; simp, ?_⟩
            intro x hx
            rcases List.mem_cons.mp hx with hx1 | hx2
            · subst hx1
              exact ⟨hrev, hval⟩
            · exact hnew2 x hx2

theorem gather_loop_admits (c : Crypt) (t : EntryT) (head : PdbHeader) (nid : Nat)
    (ents : List PdbEntry) (b : List Nat) :
    ∃ new, (PdbEntries.gather_loop c t head nid ents b).1 = ents ++ new ∧
      ∀ x ∈ new, PdbEntry.revalidate c x = .ok x ∧ PdbEntry.validate_struct x = .ok x :=
  gather_loop_admits_aux c t head b.length b (Nat.le_refl _) nid ents

theorem gather_loop_short_tag (c : Crypt) (t : EntryT) (head : PdbHeader) (nid : Nat)
    (ents : List PdbEntry) (b : List Nat) (h1 : 0 < b.length) (h2 : b.length < head.ds) :
    PdbEntries.gather_loop c t head nid ents b = (ents, some .formatError) := by
  rw [PdbEntries.gather_loop]
  have ht : b.take head.ds = b := List.take_of_length_le (le_of_lt h2)
  have hd : b.drop head.ds = [] := List.drop_eq_nil_of_le (le_of_lt h2)
  rw [ht, hd]
  rw [if_neg (by intro hb; rw [hb] at h1; exact absurd h1 (by simp))]
  split
  next err heq =>
    rw [gather_fields_nil] at heq
    injection heq with h3
    rw [h3]
  next e rest heq =>
    rw [gather_fields_nil] at heq
    exact absurd heq (by simp)

theorem gather_fields_noSentinel_aux :
    ∀ (n : Nat) (b : List Nat), b.length ≤ n → sentinelTerminated b = false →
      ∀ e : PdbEntry, PdbEntries.gather_fields e b = .error .formatError := by
  intro n
  induction n with
  | zero =>
      intro b hb _ e
      have hb0 : b = [] := List.eq_nil_of_length_eq_zero (Nat.le_zero.mp hb)
      subst hb0
      exact gather_fields_nil e
  | succ n ih =>
      intro b hb hs e
      rw [sentinelTerminated] at hs
      rw [PdbEntries.gather_fields]
      by_cases h0 : b.take s.BL = [0]
      · rw [if_pos h0] at hs
        exact absurd hs (by simp)
      · rw [if_neg h0] at hs
        rw [if_neg h0]
        simp only [List.length_drop] at hs ⊢
        by_cases h1 : b.length - s.BL < s.Lw
        · rw [dif_pos h1]
        · rw [dif_neg h1] at hs
          rw [dif_neg h1]
          refine ih _ ?_ hs _
          simp only [List.length_drop, s.BL, s.Lw] at h1 ⊢
          omega

theorem from_entry_loop_overrun (c : Crypt) (e : PdbEntry) (c0 : Nat) (h0 : c0 ≠ 0)
    (lb v : List Nat) (hlb : lb.length = s.Lw) (hlen : v.length < s.unpack lb) :
    PdbEntry.from_entry_loop c e (c0 :: (lb ++ v)) = .error .formatError := by
  rw [PdbEntry.from_entry_loop]
  have htake : (c0 :: (lb ++ v)).take s.BL = [c0] := by simp [s.BL]
  have hdrop : (c0 :: (lb ++ v)).drop s.BL = lb ++ v := by simp [s.BL]
  rw [htake, hdrop, if_neg (by simp [h0]),
    dif_neg (by simp only [List.length_append, hlb]; omega)]
  rw [List.take_left' hlb, List.drop_left' hlb]
  have hDrop : v.drop (s.unpack lb) = [] := List.drop_eq_nil_of_le (le_of_lt hlen)
  rw [hDrop, from_entry_loop_nil]

/-- The Field Codec's `encode` applied to a field list: exactly the
byte production of `PdbEntry.entry`, pulled out of the entry record so
the round-trip induction can recurse over the list. -/
def encodeFields (fs : List (List Nat × List Nat)) : List Nat :=
  (fs.map (fun fd => fd.1 ++ s.pack s.Lw fd.2.length ++ fd.2)).flatten

theorem entry_eq_encodeFields (e : PdbEntry) : e.entry = encodeFields e.fields := rfl

theorem foldl_dictInsert_fresh :
    ∀ (fs acc : List (List Nat × List Nat)),
      (∀ fd ∈ fs, dictGet acc fd.1 = none) → (fs.map Prod.fst).Nodup →
      fs.foldl (fun d fd => dictInsert d fd.1 fd.2) acc = acc ++ fs := by
  intro fs
  induction fs with
  | nil =>
      intro acc _ _
      simp
  | cons fd fs ih =>
      intro acc hfresh hnodup
      obtain ⟨k, v⟩ := fd
      have hk : dictGet acc k = none := hfresh (k, v) (List.mem_cons_self _ _)
      simp only [List.foldl_cons]
      rw [dictInsert_of_get_none acc k v hk]
      simp only [List.map_cons] at hnodup
      have hcons := List.nodup_cons.mp hnodup
      rw [ih (acc ++ [(k, v)]) ?_ hcons.2]
      · simp
      · intro fd hfd
        rw [dictGet_append acc _ _ (hfresh fd (List.mem_cons_of_mem _ hfd))]
        have hne : k ≠ fd.1 := by
          intro hkk
          exact hcons.1 (hkk ▸ List.mem_map_of_mem Prod.fst hfd)
        simp [dictGet, hne]

theorem from_entry_loop_encode (c : Crypt) :
    ∀ (fs : List (List Nat × List Nat)) (e : PdbEntry), e.variant = .raw →
      (∀ fd ∈ fs, fd.1.length = s.BL ∧ fd.1 ≠ [0] ∧ fd.2.length < 256 ^ s.Lw) →
      PdbEntry.from_entry_loop c e (encodeFields fs ++ [0]) =
        .ok { e with fields := fs.foldl (fun d fd => dictInsert d fd.1 fd.2) e.fields } := by
  intro fs
  induction fs with
  | nil =>
      intro e _ _
      simpa [encodeFields] using from_entry_loop_sentinel c e []
  | cons fd fs ih =>
      intro e hv hfd
      obtain ⟨nm, v⟩ := fd
      obtain ⟨hn1, hn2, hn3⟩ := hfd (nm, v) (List.mem_cons_self _ _)
      obtain ⟨c0, hc0⟩ := List.length_eq_one.mp (by simpa [s.BL] using hn1)
      subst hc0
      have hc0ne : c0 ≠ 0 := by
        intro hz
        subst hz
        exact hn2 rfl
      have hshape : encodeFields (([c0], v) :: fs) ++ [0] =
          c0 :: (s.pack s.Lw v.length ++ (v ++ (encodeFields fs ++ [0]))) := by
        simp [encodeFields, List.append_assoc]
      rw [hshape, from_entry_loop_field c e c0 hc0ne v _ hn3]
      have hsf : e.set_field c [c0] v = { e with fields := dictInsert e.fields [c0] v } := by
        simp [PdbEntry.set_field, hv, PdbEntry.set_field_raw]
      rw [hsf]
      rw [ih _ (by simp [hv]) (fun fd hf => hfd fd (List.mem_cons_of_mem _ hf))]
      simp

/-- A concrete container context for witnesses: digest size 2,
arbitrary secret material, empty blob. -/
def testHeader : PdbHeader :=
  { password := [1], salt := [2], hash_id := 0, hash_salt_len := 0,
    sec_crypto_passes := 0, kdf_passes := 0, zstd_comp_lvl := 0, entries := [], ds := 2 }

/-- A concrete crypto collaborator for witnesses: encryption prepends a
marker byte (so ciphertext is strictly longer than plaintext),
decryption strips it, and the keyed hash is the data length reduced to
one byte. -/
def testCrypt : Crypt :=
  { encrypt_secure := fun v _ _ _ _ _ _ _ => 1 :: v,
    decrypt_secure := fun ct _ _ _ _ _ _ =>
      match ct with
      | 1 :: v => .ok v
      | _ => .error .decryptionError,
    hash_walgo := fun _ data _ _ _ _ => [data.length % 256] }

/-- A fresh `PdbRawEntry` against `testHeader`. -/
def testRawEntry : PdbEntry :=
  { variant := .raw, eid := 0, head := testHeader, ehash := [], fields := [] }

/-- A fresh `PdbPwdEntry` against `testHeader`. -/
def testPwdEntry : PdbEntry :=
  { variant := .pwd, eid := 1, head := testHeader, ehash := [], fields := [] }

/-- A fresh collection against `testHeader`. -/
def testCol : PdbEntries := { ents := [], head := testHeader }

/-- A container context holding a two-entry blob with digest size 1;
under `testCrypt` the first entry's tag (3) is valid and the second
entry's tag (7) is not. -/
def testHeaderC3 : PdbHeader :=
  { testHeader with entries := [3, 5, 0, 0, 0, 7, 5, 0, 0, 0], ds := 1 }

/-- Claim C2: field-area decoding stops exactly when the just-read
fixed-width identifier is the all-zero sentinel of width `BL`, which is
consumed but not stored (the entry and, for the gather loop, the rest
of the stream are returned unchanged); every non-sentinel identifier is
followed by an `L`-byte length and that many value bytes, recorded as a
field pair — by `set_field_raw` in the gather loop and through the
subscript in `from_entry`. -/
theorem field_decode_sentinel_and_step (c : Crypt) (e : PdbEntry) (rest : List Nat)
    (c0 : Nat) (h0 : c0 ≠ 0) (v : List Nat) (hv : v.length < 256 ^ s.Lw) :
    PdbEntries.gather_fields e (0 :: rest) = .ok (e, rest)
    ∧ PdbEntry.from_entry_loop c e (0 :: rest) = .ok e
    ∧ PdbEntries.gather_fields e (c0 :: (s.pack s.Lw v.length ++ (v ++ rest))) =
        PdbEntries.gather_fields (e.set_field_raw [c0] v) rest
    ∧ PdbEntry.from_entry_loop c e (c0 :: (s.pack s.Lw v.length ++ (v ++ rest))) =
        PdbEntry.from_entry_loop c (e.set_field c [c0] v) rest :=
  ⟨gather_fields_sentinel e rest, from_entry_loop_sentinel c e rest,
    gather_fields_field e c0 h0 v rest hv, from_entry_loop_field c e c0 h0 v rest hv⟩

/-- Witness for C2 at a concrete identifier, value and stream. -/
theorem field_decode_sentinel_and_step_witness :
    PdbEntries.gather_fields testRawEntry (0 :: [9]) = .ok (testRawEntry, [9])
    ∧ PdbEntry.from_entry_loop testCrypt testRawEntry (0 :: [9]) = .ok testRawEntry
    ∧ PdbEntries.gather_fields testRawEntry (5 :: (s.pack s.Lw [7].length ++ ([7] ++ [9]))) =
        PdbEntries.gather_fields (testRawEntry.set_field_raw [5] [7]) [9]
    ∧ PdbEntry.from_entry_loop testCrypt testRawEntry
          (5 :: (s.pack s.Lw [7].length ++ ([7] ++ [9]))) =
        PdbEntry.from_entry_loop testCrypt (testRawEntry.set_field testCrypt [5] [7]) [9] :=
  field_decode_sentinel_and_step testCrypt testRawEntry [9] 5 (by decide) [7] (by decide)

/-- Claim C7: `PdbPwdEntry.validate_struct` raises `StructureError`
carrying the entry id exactly when one of the raw field names n, u, p,
r is absent from the field store; with all four present it succeeds and
returns the entry itself. -/
theorem pwd_validate_struct_iff (e : PdbEntry) (hvar : e.variant = .pwd) :
    (PdbEntry.validate_struct e = .error (.structureError e.eid) ↔
      ∃ f ∈ PdbPwdEntry.all_fields, dictGet e.fields f = none)
    ∧ ((∀ f ∈ PdbPwdEntry.all_fields, (dictGet e.fields f).isSome) →
      PdbEntry.validate_struct e = .ok e) := by
  have hmain : PdbEntry.validate_struct e =
      if PdbPwdEntry.all_fields.all (fun f => (dictGet e.fields f).isSome) then .ok e
      else .error (.structureError e.eid) := by
    simp only [PdbEntry.validate_struct, hvar]
  constructor
  · rw [hmain]
    by_cases hall : PdbPwdEntry.all_fields.all (fun f => (dictGet e.fields f).isSome)
    · rw [if_pos hall]
      simp only [List.all_eq_true] at hall
      constructor
      · intro hcontra
        exact absurd hcontra (by simp)
      · rintro ⟨f, hf, hnone⟩
        have hsome := hall f hf
        rw [hnone] at hsome
        exact absurd hsome (by simp)
    · rw [if_neg hall]
      simp only [List.all_eq_true] at hall
      push_neg at hall
      obtain ⟨f, hf, hnot⟩ := hall
      exact ⟨fun _ => ⟨f, hf, Option.not_isSome_iff_eq_none.mp hnot⟩, fun _ => rfl⟩
  · intro hforall
    rw [hmain, if_pos (List.all_eq_true.mpr fun f hf => hforall f hf)]

/-- Witness for C7: the fresh password entry misses all four required
fields and is rejected with its id. -/
theorem pwd_validate_struct_iff_witness :
    PdbEntry.validate_struct testPwdEntry = .error (.structureError 1) :=
  (pwd_validate_struct_iff testPwdEntry rfl).1.mpr ⟨[110], by decide, rfl⟩

/-- Claim C10: reading an absent field raises the host language's
missing-key error: both `get_field_raw` and the variant-dispatched
`get_field` (raw reads, and password reads both encrypted and plain,
all of which start from the raw store) end in `KeyError`, not in any
of the spec's four error kinds. -/
theorem get_absent_field_keyError (c : Crypt) (e : PdbEntry) (name : List Nat)
    (habs : dictGet e.fields name = none) :
    PdbEntry.get_field_raw e name = .error .keyError
    ∧ PdbEntry.get_field c e name = .error .keyError := by
  have hraw : PdbEntry.get_field_raw e name = .error .keyError := by
    simp [PdbEntry.get_field_raw, habs]
  refine ⟨hraw, ?_⟩
  unfold PdbEntry.get_field
  cases hv : e.variant with
  | raw => simpa using hraw
  | pwd =>
      by_cases hmem : name ∈ PdbPwdEntry.encrypted_fields
      · rw [if_pos hmem]
        unfold PdbEntry.get_crypt
        rw [hraw]
        rfl
      · rw [if_neg hmem]
        exact hraw

/-- Witness for C10: reading the (absent) encrypted field u of a fresh
password entry. -/
theorem get_absent_field_keyError_witness :
    PdbEntry.get_field_raw testPwdEntry [117] = .error .keyError
    ∧ PdbEntry.get_field testCrypt testPwdEntry [117] = .error .keyError :=
  get_absent_field_keyError testCrypt testPwdEntry [117] rfl

/-- Claim C8: `gather` over a container whose decrypted entries blob is
empty returns with the collection empty and no error; the context's
decrypt runs before the blob is examined (the emptiness test and the
retained header are those of the decrypted context). -/
theorem gather_empty_blob (c : Crypt) (dec : PdbHeader → PdbHeader) (t : EntryT)
    (h : PdbHeader) (hemp : (dec h).entries = []) :
    PdbEntries.gather c dec t { ents := [], head := h } =
      ({ ents := [], head := dec h }, none) := by
  unfold PdbEntries.gather
  simp [hemp]

/-- Witness for C8 with the identity decrypt and the empty-blob test
header. -/
theorem gather_empty_blob_witness :
    PdbEntries.gather testCrypt id EntryT.raw { ents := [], head := testHeader } =
      ({ ents := [], head := id testHeader }, none) :=
  gather_empty_blob testCrypt id EntryT.raw testHeader rfl

theorem gather_loop_end (c : Crypt) (t : EntryT) (head : PdbHeader) (nid : Nat)
    (ents : List PdbEntry) (b : List Nat) (h0 : b.take head.ds = []) :
    PdbEntries.gather_loop c t head nid ents b = (ents, none) := by
  rw [PdbEntries.gather_loop, if_pos h0]

theorem gather_loop_step_ok (c : Crypt) (t : EntryT) (head : PdbHeader) (nid : Nat)
    (ents : List PdbEntry) (b : List Nat) (e' e'' : PdbEntry) (rest : List Nat)
    (h0 : b.take head.ds ≠ [])
    (hg : PdbEntries.gather_fields
        { variant := t, eid := nid, head := head, ehash := b.take head.ds, fields := [] }
        (b.drop head.ds) = .ok (e', rest))
    (hgate : (e'.revalidate c).bind PdbEntry.validate_struct = .ok e'') :
    PdbEntries.gather_loop c t head nid ents b =
      PdbEntries.gather_loop c t head (nid + 1) (ents ++ [e'']) rest := by
  rw [PdbEntries.gather_loop, if_neg h0]
  split
  next err heq =>
    rw [hg] at heq
    exact absurd heq (by simp)
  next e2 rest2 heq =>
    rw [hg] at heq
    injection heq with h1
    obtain ⟨h2, h3⟩ := Prod.mk.injEq .. ▸ h1
    subst h2
    subst h3
    rw [hgate]

theorem gather_loop_step_gate_err (c : Crypt) (t : EntryT) (head : PdbHeader) (nid : Nat)
    (ents : List PdbEntry) (b : List Nat) (e' : PdbEntry) (rest : List Nat) (err : PdbErr)
    (h0 : b.take head.ds ≠ [])
    (hg : PdbEntries.gather_fields
        { variant := t, eid := nid, head := head, ehash := b.take head.ds, fields := [] }
        (b.drop head.ds) = .ok (e', rest))
    (hgate : (e'.revalidate c).bind PdbEntry.validate_struct = .error err) :
    PdbEntries.gather_loop c t head nid ents b = (ents, some err) := by
  rw [PdbEntries.gather_loop, if_neg h0]
  split
  next err2 heq =>
    rw [hg] at heq
    exact absurd heq (by simp)
  next e2 rest2 heq =>
    rw [hg] at heq
    injection heq with h1
    obtain ⟨h2, h3⟩ := Prod.mk.injEq .. ▸ h1
    subst h2
    subst h3
    rw [hgate]

/-- Claim C1: malformed entry bytes make the parse fail with
`FormatError`.  A field area that is not sentinel-terminated — which
includes a declared length overrunning the remaining buffer, since the
value read then exhausts the buffer before any sentinel — makes both
`from_entry` and the inline field loop of `gather` fail with
`FormatError`; any error `from_entry` raises is `FormatError`; a field
whose declared length exceeds the remaining value bytes leads
`from_entry` to `FormatError`; and in `gather` a tag read that returns
fewer than `ds()` bytes but more than zero ends in `FormatError`. -/
theorem parse_malformed_raises_formatError (c : Crypt) (e : PdbEntry) (b : List Nat)
    (t : EntryT) (head : PdbHeader) (nid : Nat) (ents : List PdbEntry) :
    (sentinelTerminated b = false → PdbEntry.from_entry c e b = .error .formatError)
    ∧ (sentinelTerminated b = false → PdbEntries.gather_fields e b = .error .formatError)
    ∧ (∀ err, PdbEntry.from_entry c e b = .error err → err = .formatError)
    ∧ (∀ c0 : Nat, c0 ≠ 0 → ∀ lb v : List Nat, lb.length = s.Lw →
        v.length < s.unpack lb →
        PdbEntry.from_entry c e (c0 :: (lb ++ v)) = .error .formatError)
    ∧ (0 < b.length → b.length < head.ds →
        PdbEntries.gather_loop c t head nid ents b = (ents, some .formatError)) := by
  refine ⟨?_, ?_, ?_, ?_, ?_⟩
  · intro hs
    exact from_entry_loop_noSentinel_aux c b.length b (Nat.le_refl _) hs e
  · intro hs
    exact gather_fields_noSentinel_aux b.length b (Nat.le_refl _) hs e
  · intro err h
    exact from_entry_loop_err_format h
  · intro c0 h0 lb v hlb hlen
    exact from_entry_loop_overrun c e c0 h0 lb v hlb hlen
  · intro h1 h2
    exact gather_loop_short_tag c t head nid ents b h1 h2

/-- Witness for C1: a one-byte buffer with no sentinel, an overrunning
declared length, and a short (one-byte) tag read against digest size
two. -/
theorem parse_malformed_raises_formatError_witness :
    PdbEntry.from_entry testCrypt testRawEntry [5] = .error .formatError
    ∧ PdbEntries.gather_fields testRawEntry [5] = .error .formatError
    ∧ PdbEntry.from_entry testCrypt testRawEntry (9 :: ([1, 0] ++ [])) = .error .formatError
    ∧ PdbEntries.gather_loop testCrypt EntryT.raw testHeader 0 [] [5] =
        ([], some .formatError) := by
  have hs : sentinelTerminated [5] = false := by
    rw [sentinelTerminated]
    simp [s.BL, s.Lw]
  have h := parse_malformed_raises_formatError testCrypt testRawEntry [5]
    EntryT.raw testHeader 0 []
  exact ⟨h.1 hs, h.2.1 hs,
    h.2.2.2.1 9 (by decide) [1, 0] [] (by decide) (by decide),
    h.2.2.2.2 (by decide) (by decide)⟩

/-- Claim C4: every entry admitted into a collection — by `gather` or
by `add_entry` — passed `revalidate` and `validate_struct` (and, as
both return the entry unchanged on success, still satisfies both
gates); moreover the integrity gate runs first: an entry with a bad
hash is always rejected with `DataIntegrityError`, whatever its
structure. -/
theorem admitted_entries_passed_gates (c : Crypt) (dec : PdbHeader → PdbHeader)
    (t : EntryT) (col : PdbEntries) :
    (∀ e ∈ (PdbEntries.gather c dec t col).1.ents,
        e ∈ col.ents ∨
          (PdbEntry.revalidate c e = .ok e ∧ PdbEntry.validate_struct e = .ok e))
    ∧ (∀ e : PdbEntry, ∀ x ∈ (PdbEntries.add_entry c col e).1.ents,
        x ∈ col.ents ∨
          (PdbEntry.revalidate c x = .ok x ∧ PdbEntry.validate_struct x = .ok x))
    ∧ (∀ e : PdbEntry, PdbEntry.hash_ok c e = false →
        PdbEntries.add_entry c col e = (col, some (.dataIntegrityError e.eid e.ehash))) := by
  refine ⟨?_, ?_, ?_⟩
  · intro e he
    simp only [PdbEntries.gather] at he
    split at he
    · exact Or.inl he
    · have he' : e ∈
          (PdbEntries.gather_loop c t (dec col.head) 0 col.ents (dec col.head).entries).1 :=
        he
      obtain ⟨new, h1, h2⟩ :=
        gather_loop_admits c t (dec col.head) 0 col.ents (dec col.head).entries
      rw [h1] at he'
      rcases List.mem_append.mp he' with hmem | hmem
      · exact Or.inl hmem
      · exact Or.inr (h2 e hmem)
  · intro e x hx
    unfold PdbEntries.add_entry at hx
    split at hx
    · exact Or.inl hx
    next e' hgate =>
      have hx' : x ∈ col.ents ++ [e'] := hx
      rcases List.mem_append.mp hx' with hmem | hmem
      · exact Or.inl hmem
      · obtain ⟨_, hrev, hval⟩ := gate_ok hgate
        have hxe : x = e' := by simpa using hmem
        subst hxe
        exact Or.inr ⟨hrev, hval⟩
  · intro e hh
    unfold PdbEntries.add_entry
    have hrev : PdbEntry.revalidate c e = .error (.dataIntegrityError e.eid e.ehash) := by
      unfold PdbEntry.revalidate
      rw [if_neg (by simp [hh])]
    rw [hrev]
    rfl

/-- Witness for C4: adding a fresh password entry with an empty (hence
invalid) tag is rejected by the integrity gate with the entry's id and
tag. -/
theorem admitted_entries_passed_gates_witness :
    PdbEntries.add_entry testCrypt testCol testPwdEntry =
      (testCol, some (.dataIntegrityError 1 [])) := by
  have h := admitted_entries_passed_gates testCrypt id EntryT.raw testCol
  exact h.2.2 testPwdEntry (by decide)

/-- Claim C5: for a password entry, `get_field` after `set_field`
returns the stored value exactly on the encrypted fields u and p — for
every value, the empty byte string included — provided the crypto
collaborator's decrypt inverts its encrypt under the container's
parameters; and for non-empty values the raw stored bytes are never
the plaintext (authenticated encryption lengthens its input, so the
ciphertext cannot coincide with it). -/
theorem pwd_selective_encryption_roundtrip (c : Crypt) (e : PdbEntry)
    (hvar : e.variant = .pwd) (X : List Nat)
    (hinv : ∀ v, c.dec_secure_hdr e.head (c.enc_secure_hdr e.head v) = .ok v)
    (hgrow : ∀ v : List Nat, v.length < (c.enc_secure_hdr e.head v).length) :
    ∀ name ∈ PdbPwdEntry.encrypted_fields,
      PdbEntry.get_field c (PdbEntry.set_field c e name X) name = .ok X
      ∧ (X ≠ [] →
          PdbEntry.get_field_raw (PdbEntry.set_field c e name X) name ≠ .ok X) := by
  intro name hmem
  have hset : PdbEntry.set_field c e name X =
      { e with fields := dictInsert e.fields name (c.enc_secure_hdr e.head X) } := by
    simp [PdbEntry.set_field, hvar, hmem, PdbEntry.set_crypt, PdbEntry.set_field_raw]
  have hraw : PdbEntry.get_field_raw (PdbEntry.set_field c e name X) name =
      .ok (c.enc_secure_hdr e.head X) := by
    rw [hset]
    simp [PdbEntry.get_field_raw, dictGet_dictInsert_self]
  constructor
  · have hv2 : (PdbEntry.set_field c e name X).variant = EntryT.pwd := by
      rw [hset]
      exact hvar
    have hh2 : (PdbEntry.set_field c e name X).head = e.head := by
      rw [hset]
    simp only [PdbEntry.get_field, hv2, if_pos hmem, PdbEntry.get_crypt]
    rw [hraw]
    show c.dec_secure_hdr (PdbEntry.set_field c e name X).head
        (c.enc_secure_hdr e.head X) = .ok X
    rw [hh2]
    exact hinv X
  · intro _ hcontra
    rw [hraw] at hcontra
    injection hcontra with henc
    have := hgrow X
    rw [henc] at this
    exact absurd this (by simp)

/-- Witness for C5: storing then reading the username field of a fresh
password entry under the concrete marker-byte cipher. -/
theorem pwd_selective_encryption_roundtrip_witness :
    PdbEntry.get_field testCrypt (PdbEntry.set_field testCrypt testPwdEntry [117] [7]) [117] =
      .ok [7]
    ∧ ([7] ≠ ([] : List Nat) →
        PdbEntry.get_field_raw (PdbEntry.set_field testCrypt testPwdEntry [117] [7]) [117] ≠
          .ok [7]) := by
  have h := pwd_selective_encryption_roundtrip testCrypt testPwdEntry rfl [7]
    (fun v => by simp [Crypt.dec_secure_hdr, Crypt.enc_secure_hdr, testCrypt])
    (fun v => by simp [Crypt.enc_secure_hdr, testCrypt])
  exact h [117] (by decide)

/-- Claim C6: codec round-trip for raw entries — parsing the encoding
of any field mapping (names of width `BL`, none the sentinel, no
duplicate names, value lengths within the `L`-byte range) with
`from_entry` on a fresh raw entry yields exactly the original
mapping. -/
theorem raw_entry_codec_roundtrip (c : Crypt) (e0 fresh : PdbEntry)
    (hfv : fresh.variant = .raw) (hff : fresh.fields = [])
    (h1 : ∀ fd ∈ e0.fields, fd.1.length = s.BL ∧ fd.1 ≠ [0] ∧ fd.2.length < 256 ^ s.Lw)
    (h2 : (e0.fields.map Prod.fst).Nodup) :
    ∃ e', PdbEntry.from_entry c fresh (e0.entry ++ [0]) = .ok e' ∧
      e'.fields = e0.fields := by
  rw [entry_eq_encodeFields]
  have henc := from_entry_loop_encode c e0.fields fresh hfv h1
  refine ⟨_, henc, ?_⟩
  show List.foldl (fun d fd => dictInsert d fd.1 fd.2) fresh.fields e0.fields = e0.fields
  rw [hff]
  rw [foldl_dictInsert_fresh e0.fields [] (fun fd _ => rfl) h2]
  simp

/-- A raw entry already holding one field, used as the round-trip
witness input. -/
def testFullRaw : PdbEntry :=
  { variant := .raw, eid := 2, head := testHeader, ehash := [], fields := [([5], [7, 8])] }

/-- Witness for C6: round-tripping a one-field raw entry. -/
theorem raw_entry_codec_roundtrip_witness :
    ∃ e', PdbEntry.from_entry testCrypt testRawEntry (testFullRaw.entry ++ [0]) = .ok e' ∧
      e'.fields = testFullRaw.fields :=
  raw_entry_codec_roundtrip testCrypt testFullRaw testRawEntry rfl rfl
    (by decide) (by decide)

/-- Claim C9: `from_entry` routes every parsed value through the
variant's `set_field`, so on a password entry the wire bytes of u are
encrypted a second time before storage, while the inline loop of
`gather` stores the same wire bytes unchanged via `set_field_raw`; the
two parse paths hence produce different raw field stores from the same
input bytes. -/
theorem fromEntry_vs_gather_raw_store_differ (c : Crypt) (e1 e2 : PdbEntry)
    (h1v : e1.variant = .pwd) (h1f : e1.fields = []) (h2f : e2.fields = [])
    (w : List Nat) (hw : w.length < 256 ^ s.Lw)
    (hgrow : ∀ v : List Nat, v.length < (c.enc_secure_hdr e1.head v).length) :
    ∃ ef, PdbEntry.from_entry c e1 (117 :: (s.pack s.Lw w.length ++ (w ++ [0]))) = .ok ef
      ∧ ef.fields = [([117], c.enc_secure_hdr e1.head w)]
      ∧ PdbEntries.gather_fields e2 (117 :: (s.pack s.Lw w.length ++ (w ++ [0]))) =
          .ok ({ e2 with fields := [([117], w)] }, [])
      ∧ ef.fields ≠ [([117], w)] := by
  have hmem : ([117] : List Nat) ∈ PdbPwdEntry.encrypted_fields := by decide
  have hset : e1.set_field c [117] w =
      { e1 with fields := dictInsert e1.fields [117] (c.enc_secure_hdr e1.head w) } := by
    simp [PdbEntry.set_field, h1v, hmem, PdbEntry.set_crypt, PdbEntry.set_field_raw]
  have hfe : PdbEntry.from_entry c e1 (117 :: (s.pack s.Lw w.length ++ (w ++ [0]))) =
      .ok (e1.set_field c [117] w) := by
    show PdbEntry.from_entry_loop c e1 (117 :: (s.pack s.Lw w.length ++ (w ++ [0]))) =
      .ok (e1.set_field c [117] w)
    rw [from_entry_loop_field c e1 117 (by decide) w [0] hw]
    exact from_entry_loop_sentinel c _ []
  refine ⟨_, hfe, ?_, ?_, ?_⟩
  · rw [hset]
    show dictInsert e1.fields [117] (c.enc_secure_hdr e1.head w) =
      [([117], c.enc_secure_hdr e1.head w)]
    rw [h1f]
    rfl
  · rw [gather_fields_field e2 117 (by decide) w [0] hw]
    have hset2 : e2.set_field_raw [117] w = { e2 with fields := [([117], w)] } := by
      simp [PdbEntry.set_field_raw, h2f]
      rfl
    rw [hset2]
    exact gather_fields_sentinel _ []
  · rw [hset]
    show dictInsert e1.fields [117] (c.enc_secure_hdr e1.head w) ≠ [([117], w)]
    rw [h1f]
    intro hcontra
    simp only [dictInsert, List.cons.injEq, Prod.mk.injEq] at hcontra
    have henc : c.enc_secure_hdr e1.head w = w := hcontra.1.2
    have := hgrow w
    rw [henc] at this
    exact absurd this (by simp)

/-- Witness for C9 with the marker-byte cipher and a one-byte wire
value for u. -/
theorem fromEntry_vs_gather_raw_store_differ_witness :
    ∃ ef, PdbEntry.from_entry testCrypt testPwdEntry
        (117 :: (s.pack s.Lw [7].length ++ ([7] ++ [0]))) = .ok ef
      ∧ ef.fields = [([117], testCrypt.enc_secure_hdr testPwdEntry.head [7])]
      ∧ PdbEntries.gather_fields testRawEntry
          (117 :: (s.pack s.Lw [7].length ++ ([7] ++ [0]))) =
          .ok ({ testRawEntry with fields := [([117], [7])] }, [])
      ∧ ef.fields ≠ [([117], [7])] :=
  fromEntry_vs_gather_raw_store_differ testCrypt testPwdEntry testRawEntry rfl rfl rfl
    [7] (by decide) (fun v => by simp [Crypt.enc_secure_hdr, testCrypt])

/-- The first entry of `testHeaderC3`'s blob before its field area is
parsed: tag 3, which is valid under `testCrypt`. -/
def entC31 : PdbEntry :=
  { variant := .raw, eid := 0, head := testHeaderC3, ehash := [3], fields := [] }

/-- The first blob entry after parsing: one empty field named 5. -/
def entC31f : PdbEntry := { entC31 with fields := [([5], [])] }

/-- The second entry of `testHeaderC3`'s blob before its field area is
parsed: tag 7, which is invalid under `testCrypt`. -/
def entC32 : PdbEntry :=
  { variant := .raw, eid := 1, head := testHeaderC3, ehash := [7], fields := [] }

/-- The second blob entry after parsing: one empty field named 5. -/
def entC32f : PdbEntry := { entC32 with fields := [([5], [])] }

/-- Counterexample to claim C3 as stated: over `testHeaderC3`'s blob,
`gather` fails on the second entry (bad tag), yet the collection after
the failed call holds the first entry taken from that very blob — the
entry list did not stay unchanged, so a failed `gather` does admit
entries of the failing blob. -/
theorem gather_partial_admission_counterexample :
    (PdbEntries.gather testCrypt id EntryT.raw
        { ents := [], head := testHeaderC3 }).2.isSome = true
    ∧ (PdbEntries.gather testCrypt id EntryT.raw
        { ents := [], head := testHeaderC3 }).1.ents.length = 1 := by
  have hgf1 : PdbEntries.gather_fields entC31 [5, 0, 0, 0, 7, 5, 0, 0, 0] =
      .ok (entC31f, [7, 5, 0, 0, 0]) :=
    calc PdbEntries.gather_fields entC31 [5, 0, 0, 0, 7, 5, 0, 0, 0]
        = PdbEntries.gather_fields (entC31.set_field_raw [5] []) [0, 7, 5, 0, 0, 0] :=
          gather_fields_field entC31 5 (by decide) [] [0, 7, 5, 0, 0, 0] (by decide)
      _ = .ok (entC31f, [7, 5, 0, 0, 0]) := gather_fields_sentinel entC31f [7, 5, 0, 0, 0]
  have hgf2 : PdbEntries.gather_fields entC32 [5, 0, 0, 0] = .ok (entC32f, []) :=
    calc PdbEntries.gather_fields entC32 [5, 0, 0, 0]
        = PdbEntries.gather_fields (entC32.set_field_raw [5] []) [0] :=
          gather_fields_field entC32 5 (by decide) [] [0] (by decide)
      _ = .ok (entC32f, []) := gather_fields_sentinel entC32f []
  have hgate1 : (entC31f.revalidate testCrypt).bind PdbEntry.validate_struct =
      .ok entC31f := rfl
  have hgate2 : (entC32f.revalidate testCrypt).bind PdbEntry.validate_struct =
      .error (.dataIntegrityError 1 [7]) := rfl
  have hstep1 : PdbEntries.gather_loop testCrypt EntryT.raw testHeaderC3 0 []
      [3, 5, 0, 0, 0, 7, 5, 0, 0, 0] =
      PdbEntries.gather_loop testCrypt EntryT.raw testHeaderC3 1 ([] ++ [entC31f])
        [7, 5, 0, 0, 0] :=
    gather_loop_step_ok testCrypt EntryT.raw testHeaderC3 0 []
      [3, 5, 0, 0, 0, 7, 5, 0, 0, 0] entC31f entC31f [7, 5, 0, 0, 0]
      (by decide) hgf1 hgate1
  have hstep2 : PdbEntries.gather_loop testCrypt EntryT.raw testHeaderC3 1 ([] ++ [entC31f])
      [7, 5, 0, 0, 0] = ([] ++ [entC31f], some (.dataIntegrityError 1 [7])) :=
    gather_loop_step_gate_err testCrypt EntryT.raw testHeaderC3 1 ([] ++ [entC31f])
      [7, 5, 0, 0, 0] entC32f [] (.dataIntegrityError 1 [7]) (by decide) hgf2 hgate2
  have hloop : PdbEntries.gather_loop testCrypt EntryT.raw testHeaderC3 0 []
      [3, 5, 0, 0, 0, 7, 5, 0, 0, 0] = ([entC31f], some (.dataIntegrityError 1 [7])) := by
    rw [hstep1, hstep2]
    simp
  have h0 : PdbEntries.gather testCrypt id EntryT.raw { ents := [], head := testHeaderC3 } =
      ({ ents := (PdbEntries.gather_loop testCrypt EntryT.raw testHeaderC3 0 []
            [3, 5, 0, 0, 0, 7, 5, 0, 0, 0]).1, head := testHeaderC3 },
        (PdbEntries.gather_loop testCrypt EntryT.raw testHeaderC3 0 []
          [3, 5, 0, 0, 0, 7, 5, 0, 0, 0]).2) := rfl
  rw [h0, hloop]
  exact ⟨rfl, rfl⟩

theorem gather_loop_step_parse_err (c : Crypt) (t : EntryT) (head : PdbHeader) (nid : Nat)
    (ents : List PdbEntry) (b : List Nat) (err : PdbErr)
    (h0 : b.take head.ds ≠ [])
    (hg : PdbEntries.gather_fields
        { variant := t, eid := nid, head := head, ehash := b.take head.ds, fields := [] }
        (b.drop head.ds) = .error err) :
    PdbEntries.gather_loop c t head nid ents b = (ents, some err) := by
  rw [PdbEntries.gather_loop, if_neg h0]
  split
  next err2 heq =>
    rw [hg] at heq
    injection heq with h1
    rw [h1]
  next e2 rest2 heq =>
    rw [hg] at heq
    exact absurd heq (by simp)

/-- Claim C3 (amended): `gather` and `add_entry` fail fast on the first
invalid entry — when the next entry of the remaining blob fails the
field-area parse, or fails the integrity/structural gates, the loop
returns at once with the entry list exactly as it stood, so nothing at
or past the failure is appended even when later bytes hold further
valid entries; a failed `add_entry` leaves the entry list unchanged;
and every extension `gather` makes to the entry list consists of
entries that passed both gates.  Unlike the original claim, entries of
the same blob that came before the failure and passed both gates
remain appended, so a failed `gather` call can leave the collection
extended. -/
theorem gather_failfast_addEntry_atomic (c : Crypt) (dec : PdbHeader → PdbHeader)
    (t : EntryT) (col : PdbEntries) (e : PdbEntry) :
    ((PdbEntries.add_entry c col e).2.isSome = true →
      (PdbEntries.add_entry c col e).1 = col)
    ∧ (∃ new, (PdbEntries.gather c dec t col).1.ents = col.ents ++ new ∧
        ∀ x ∈ new, PdbEntry.revalidate c x = .ok x ∧ PdbEntry.validate_struct x = .ok x)
    ∧ (∀ (head : PdbHeader) (nid : Nat) (ents : List PdbEntry) (b : List Nat) (err : PdbErr),
        b.take head.ds ≠ [] →
        PdbEntries.gather_fields
          { variant := t, eid := nid, head := head, ehash := b.take head.ds, fields := [] }
          (b.drop head.ds) = .error err →
        PdbEntries.gather_loop c t head nid ents b = (ents, some err))
    ∧ (∀ (head : PdbHeader) (nid : Nat) (ents : List PdbEntry) (b : List Nat)
        (e' : PdbEntry) (rest : List Nat) (err : PdbErr),
        b.take head.ds ≠ [] →
        PdbEntries.gather_fields
          { variant := t, eid := nid, head := head, ehash := b.take head.ds, fields := [] }
          (b.drop head.ds) = .ok (e', rest) →
        (e'.revalidate c).bind PdbEntry.validate_struct = .error err →
        PdbEntries.gather_loop c t head nid ents b = (ents, some err)) := by
  refine ⟨?_, ?_, ?_, ?_⟩
  · intro hsome
    cases hgate : (e.revalidate c).bind PdbEntry.validate_struct with
    | error err => simp [PdbEntries.add_entry, hgate]
    | ok e' => simp [PdbEntries.add_entry, hgate] at hsome
  · simp only [PdbEntries.gather]
    split
    · exact ⟨[], by simp, by simp⟩
    · exact gather_loop_admits c t (dec col.head) 0 col.ents (dec col.head).entries
  · intro head nid ents b err h0 hg
    exact gather_loop_step_parse_err c t head nid ents b err h0 hg
  · intro head nid ents b e' rest err h0 hg hgate
    exact gather_loop_step_gate_err c t head nid ents b e' rest err h0 hg hgate

/-- Witness for amended C3: the rejected fresh password entry leaves
the collection unchanged; a blob whose first entry's field area is
truncated makes `gather_loop` stop with nothing appended; and a blob
whose first entry has a bad tag followed by a fully valid entry makes
`gather_loop` stop with nothing appended — the valid later entry is
never admitted. -/
theorem gather_failfast_addEntry_atomic_witness :
    (PdbEntries.add_entry testCrypt testCol testPwdEntry).1 = testCol
    ∧ PdbEntries.gather_loop testCrypt EntryT.raw testHeaderC3 0 [] [7, 5] =
        ([], some .formatError)
    ∧ PdbEntries.gather_loop testCrypt EntryT.raw testHeaderC3 0 []
        [7, 5, 0, 0, 0, 3, 5, 0, 0, 0] = ([], some (.dataIntegrityError 0 [7])) := by
  have h := gather_failfast_addEntry_atomic testCrypt id EntryT.raw testCol testPwdEntry
  refine ⟨h.1 rfl, ?_, ?_⟩
  · have hpf : PdbEntries.gather_fields
        { variant := EntryT.raw, eid := 0, head := testHeaderC3, ehash := [7], fields := [] }
        [5] = .error .formatError := by
      rw [PdbEntries.gather_fields]
      simp [s.BL, s.Lw]
    exact h.2.2.1 testHeaderC3 0 [] [7, 5] .formatError (by decide) hpf
  · have hgf : PdbEntries.gather_fields
        { variant := EntryT.raw, eid := 0, head := testHeaderC3, ehash := [7], fields := [] }
        [5, 0, 0, 0, 3, 5, 0, 0, 0] =
        .ok ({ variant := EntryT.raw, eid := 0, head := testHeaderC3, ehash := [7],
               fields := [([5], [])] }, [3, 5, 0, 0, 0]) := by
      refine Eq.trans ?_ (gather_fields_sentinel _ [3, 5, 0, 0, 0])
      exact gather_fields_field _ 5 (by decide) [] [0, 3, 5, 0, 0, 0] (by decide)
    exact h.2.2.2 testHeaderC3 0 [] [7, 5, 0, 0, 0, 3, 5, 0, 0, 0] _ [3, 5, 0, 0, 0]
      (.dataIntegrityError 0 [7]) (by decide) hgf rfl
